import Mathlib

/-!
Verification of the word-search puzzle generator (src/grid.rs, src/main.rs).

The Rust core is shallowly embedded as executable Lean definitions:

* machine integers (`usize`) are `Nat`; where the source performs a
  subtraction that can underflow, we model the release-mode wrapping
  semantics explicitly with `wsub` (reduction modulo `2 ^ 64`);
* `isize` coordinate arithmetic inside `try_word` is modelled with `Int`;
  an index that is out of bounds reads as `none` / writes as a no-op in
  the model (in Rust such an access panics; every theorem below either
  hypothesises in-bounds runs or arises on paths where the source
  guarantees in-bounds accesses, so the two agree on all paths used);
* the thread RNG is an injected oracle: a stream of naturals consumed one
  draw at a time, with `gen_range(lo..=hi)` modelled as `lo + n % (hi+1-lo)`
  and the derived uniform `Direction` draw as `n % 8`;
* Rust `Option<char>` cells are `Option Char`, grids are lists of rows;
* a Rust panic (e.g. `.unwrap()` on `None` in `Grid::new`) is modelled by
  an `Option`-valued result being `none`.
-/

/-- Size of the `usize` value space on the 64-bit target. -/
def USIZE : Nat := 2 ^ 64

/-- Wrapping (release-mode) `usize` subtraction `a - b`. -/
def wsub (a b : Nat) : Nat := (a + USIZE - b) % USIZE

/-- A word, as the sequence of its characters (Rust `String` viewed via `.chars()`). -/
abbrev Word := List Char

/-- The grid buffer: `Vec<Vec<Option<char>>>`, indexed `grid[y][x]`. -/
abbrev Cells := List (List (Option Char))

/-- The random source: `rand::rngs::ThreadRng` modelled as an oracle stream of naturals. -/
abbrev Rng := List Nat

/-- Draw one value from the oracle (an exhausted oracle keeps returning 0). -/
def rngNext (r : Rng) : Nat × Rng := (r.headD 0, r.tail)

/-- Model of `rng.gen_range(lo..=hi)` for a nonempty range: a value in `[lo, hi]`.
(Rust panics on an empty range; the model then returns `lo`, a case no theorem uses.) -/
def genRange (lo hi : Nat) (rng : Rng) : Nat × Rng :=
  let (n, r) := rngNext rng
  (lo + n % (hi + 1 - lo), r)

/-- The eight compass directions of `enum Direction` in src/grid.rs. -/
inductive Direction where
  | East
  | Southeast
  | South
  | Southwest
  | West
  | Northwest
  | North
  | Northeast
deriving DecidableEq

/-- Source `Direction::next`: the unit step `(dx, dy)` of a direction. -/
def Direction.next : Direction → Int × Int
  | .East => (1, 0)
  | .Southeast => (1, 1)
  | .South => (0, 1)
  | .Southwest => (-1, 1)
  | .West => (-1, 0)
  | .Northwest => (-1, -1)
  | .North => (0, -1)
  | .Northeast => (1, -1)

/-- Model of the derived `RandGen` instance: `rng.gen::<Direction>()` picks one of the
eight variants, in declaration order, from one oracle draw taken modulo 8. -/
def Direction.gen : Nat → Direction
  | 0 => .East
  | 1 => .Southeast
  | 2 => .South
  | 3 => .Southwest
  | 4 => .West
  | 5 => .Northwest
  | 6 => .North
  | _ => .Northeast

/-- Source `Direction::ranges`: the inclusive ranges of allowable starting positions for a
word of length `len`, as `((xmin, xmax), (ymin, ymax))`. The source subtracts `usize`
values with no underflow guard, hence the wrapping `wsub`. -/
def Direction.ranges (d : Direction) (len width height : Nat) :
    (Nat × Nat) × (Nat × Nat) :=
  let (dx, dy) := d.next
  let xr := if dx < 0 then (wsub len 1, wsub width 1) else (0, wsub width len)
  let yr := if dy < 0 then (wsub len 1, wsub height 1) else (0, wsub height len)
  (xr, yr)

/-- Read the cell `grid[y][x]` (Int coordinates as in `try_word`); an out-of-bounds
coordinate reads as `none` in the model (the source would panic there). -/
def cellI (g : Cells) (x y : Int) : Option Char :=
  if 0 ≤ x ∧ 0 ≤ y then (g.getD y.toNat []).getD x.toNat none else none

/-- Write letter `c` at `grid[y][x]`; out of bounds is a no-op in the model. -/
def setCellI (g : Cells) (x y : Int) (c : Char) : Cells :=
  if 0 ≤ x ∧ 0 ≤ y then g.set y.toNat ((g.getD y.toNat []).set x.toNat (some c)) else g

/-- First loop of `Grid::try_word`: walk the word along the direction and check that each
underlying cell is either empty or already holds the exact letter at that position. -/
def scanOk (g : Cells) : Word → Direction → Int → Int → Bool
  | [], _, _, _ => true
  | c :: cs, d, x, y =>
    (match cellI g x y with
     | none => true
     | some a => a == c) && scanOk g cs d (x + d.next.1) (y + d.next.2)

/-- Second loop of `Grid::try_word`: write each letter of the word into its cell. -/
def writeWord (g : Cells) : Word → Direction → Int → Int → Cells
  | [], _, _, _ => g
  | c :: cs, d, x, y => writeWord (setCellI g x y c) cs d (x + d.next.1) (y + d.next.2)

/-- Source `Grid::try_word`: validate the run first, and only on success return the grid
with the word written (the source clones; the model returns the new grid). -/
def try_word (g : Cells) (word : Word) (dir : Direction) (x0 y0 : Nat) :
    Except Unit Cells :=
  if scanOk g word dir x0 y0 then .ok (writeWord g word dir x0 y0) else .error ()

/-- Source `Grid::empty_count`: the number of `None` cells. -/
def empty_count (g : Cells) : Nat :=
  (g.map fun row => (row.map fun cell => cell.elim 1 fun _ => 0).sum).sum

/-- One cell of `Grid::fill`: keep an occupied cell, give an empty one a random letter
`rng.gen_range('A'..='Z')` (modelled as code point `65 + n % 26`). -/
def fillCell (c : Option Char) (r : Rng) : Option Char × Rng :=
  match c with
  | some a => (some a, r)
  | none =>
    let (n, r1) := rngNext r
    (some (Char.ofNat (65 + n % 26)), r1)

/-- Fill one row of the grid, left to right. -/
def fillRow : List (Option Char) → Rng → List (Option Char) × Rng
  | [], r => ([], r)
  | c :: cs, r =>
    let (c1, r1) := fillCell c r
    let (cs1, r2) := fillRow cs r1
    (c1 :: cs1, r2)

/-- Source `Grid::fill`: fill every empty cell, row by row. (The Rust signature is
`Result`-valued but every path returns `Ok`, so the model is total.) -/
def fill : Cells → Rng → Cells × Rng
  | [], r => ([], r)
  | row :: rows, r =>
    let (row1, r1) := fillRow row r
    let (rows1, r2) := fill rows r1
    (row1 :: rows1, r2)

/-- The `Grid` struct of src/grid.rs. -/
structure Grid where
  wordlist : List Word
  width : Nat
  height : Nat
  grid : Cells
deriving DecidableEq

/-- The placement-exhausted failure: the anyhow error
"Failed to place {word} after {retry limit} retries" of `Grid::place_word`. -/
structure PlacementError where
  word : Word
  attempts : Nat
deriving DecidableEq

/-- Least `k` with `n ≤ k * k`, i.e. `ceil(sqrt n)` for exact (real) arithmetic. -/
def ceilSqrt (n : Nat) : Nat :=
  if Nat.sqrt n * Nat.sqrt n = n then Nat.sqrt n else Nat.sqrt n + 1

/-- Source `Grid::new`. On an empty word list `.max().unwrap()` panics, modelled as
`none`. The source computes `avg_len` and `num_letters = avg_len * count` in `f32`;
the model computes in exact arithmetic, where `avg_len * count` is exactly the total
letter count, so `default_size = ceil(sqrt(2 * total))`. -/
def Grid.new (wordlist : List Word) (width height : Option Nat) : Option Grid :=
  match (wordlist.map List.length).max? with
  | none => none
  | some longest_word =>
    let num_letters := (wordlist.map List.length).sum
    let default_size := ceilSqrt (2 * num_letters)
    let w := max longest_word (width.getD default_size)
    let h := max longest_word (height.getD default_size)
    some { wordlist := wordlist
           width := w
           height := h
           grid := List.replicate h (List.replicate w none) }

/-- One iteration of the retry loop of `Grid::place_word`: draw a direction, draw a
start from its legal ranges (x first, then y, as in the source), and try the word. -/
def attempt (g : Grid) (word : Word) (rng : Rng) : Except Unit Cells × Rng :=
  let (n, r1) := rngNext rng
  let dir := Direction.gen (n % 8)
  let (xr, yr) := dir.ranges word.length g.width g.height
  let (x, r2) := genRange xr.1 xr.2 r1
  let (y, r3) := genRange yr.1 yr.2 r2
  (try_word g.grid word dir x y, r3)

/-- The retry loop of `Grid::place_word`: up to `fuel` attempts; return the first new
grid that fits, or `none` when the budget is exhausted. -/
def tryAttempts (g : Grid) (word : Word) : Nat → Rng → Option (Cells × Rng)
  | 0, _ => none
  | fuel + 1, rng =>
    match attempt g word rng with
    | (.error _, r3) => tryAttempts g word fuel r3
    | (.ok cells, r3) => some (cells, r3)

/-- Source `Grid::place_word`: pop the word at the BACK of the word list
(`Vec::pop` removes the last element), place it within a budget of
`empty_count` attempts, and recurse; with the list empty, run `fill`. -/
def place_word (g : Grid) (rng : Rng) : Except PlacementError (Grid × Rng) :=
  match h : g.wordlist.getLast? with
  | none =>
    let (cells, r1) := fill g.grid rng
    .ok ({ g with grid := cells }, r1)
  | some word =>
    let rest := g.wordlist.dropLast
    let retry_limit := empty_count g.grid
    match tryAttempts g word retry_limit rng with
    | none => .error { word := word, attempts := retry_limit }
    | some (cells, r2) => place_word { g with wordlist := rest, grid := cells } r2
termination_by g.wordlist.length
decreasing_by
  have hne : g.wordlist ≠ [] := by
    intro he
    rw [he] at h
    simp at h
  have hp : 0 < g.wordlist.length := List.length_pos.mpr hne
  simp only [List.length_dropLast]
  omega

/-- Model of `rand::seq::SliceRandom::shuffle` (external crate): an oracle-driven
uniform permutation. Modelled by random insertion: shuffle the tail, then insert the
head at an oracle-chosen position. Claims use only that the result is a permutation
of the input. -/
def shuffle : List Word → Rng → List Word × Rng
  | [], r => ([], r)
  | x :: xs, r =>
    let (ys, r1) := shuffle xs r
    let (n, r2) := rngNext r1
    (ys.insertIdx (n % (ys.length + 1)) x, r2)

/-- Turn the finished `Option`-cell buffer into the `Vec<Vec<char>>` result. The
source calls `.unwrap()` on every cell; the model defaults to `'A'` in the (never
reached, see the fill theorems) `none` case. -/
def collapse (g : Cells) : List (List Char) :=
  g.map fun row => row.map fun c => c.getD 'A'

/-- Source `Grid::generate`: shuffle the word list, run the recursive placement, and
unwrap the cells. -/
def generate (g : Grid) (rng : Rng) : Except PlacementError (List (List Char)) :=
  let (wordlist, r1) := shuffle g.wordlist rng
  match place_word { g with wordlist := wordlist } r1 with
  | .error e => .error e
  | .ok (g1, _) => .ok (collapse g1.grid)

/-- Modelled from the spec (section 4.5, "Feed words to the Placement Engine one at a
time in the shuffled order"): a placement engine that takes words from the FRONT of
the word list, first word first. Used only to compare against the source engine,
which pops from the back. -/
def place_word_spec (g : Grid) (rng : Rng) : Except PlacementError (Grid × Rng) :=
  match h : g.wordlist with
  | [] =>
    let (cells, r1) := fill g.grid rng
    .ok ({ g with grid := cells }, r1)
  | word :: rest =>
    let retry_limit := empty_count g.grid
    match tryAttempts g word retry_limit rng with
    | none => .error { word := word, attempts := retry_limit }
    | some (cells, r2) => place_word_spec { g with wordlist := rest, grid := cells } r2
termination_by g.wordlist.length
decreasing_by
  simp_all

/-- Modelled from the spec: the orchestrator feeding words in shuffled order,
first word first, otherwise identical to `generate`. -/
def generate_spec (g : Grid) (rng : Rng) : Except PlacementError (List (List Char)) :=
  let (wordlist, r1) := shuffle g.wordlist rng
  match place_word_spec { g with wordlist := wordlist } r1 with
  | .error e => .error e
  | .ok (g1, _) => .ok (collapse g1.grid)

/-- The pure emptiness check of `read_wordlist` in src/main.rs (the file I/O is
modelled away: the function receives the list of lines already read). -/
def read_wordlist_check (lines : List String) : Except String (List String) :=
  if lines.isEmpty then .error "Empty word list" else .ok lines

/-! ### Predicates used by the specification theorems -/

/-- A coordinate pair addresses an actual cell of the (possibly ragged) buffer. -/
def inBounds (g : Cells) (x y : Int) : Prop :=
  0 ≤ x ∧ 0 ≤ y ∧ y.toNat < g.length ∧ x.toNat < (g.getD y.toNat []).length

/-! ### Runs of cells along a direction -/

/-- The points visited by a run of `n` steps from `(x, y)` along `d`. -/
def onRun (d : Direction) : Int → Int → Nat → Int → Int → Prop
  | _, _, 0, _, _ => False
  | x, y, n + 1, p, q =>
    (p = x ∧ q = y) ∨ onRun d (x + d.next.1) (y + d.next.2) n p q

/-- The cells of the run from `(x, y)` along `d` hold exactly the word's letters. -/
def holdsRun (g : Cells) (d : Direction) : Int → Int → Word → Prop
  | _, _, [] => True
  | x, y, c :: cs =>
    cellI g x y = some c ∧ holdsRun g d (x + d.next.1) (y + d.next.2) cs

/-- Every point of a run is a real cell of the buffer. -/
def runInBounds (g : Cells) (d : Direction) (x y : Int) (n : Nat) : Prop :=
  ∀ p q, onRun d x y n p q → inBounds g p q

/-- A letter is in the puzzle alphabet. -/
abbrev alphaCh (c : Char) : Prop := 'A' ≤ c ∧ c ≤ 'Z'

/-- Every occupied cell of the buffer holds an alphabet letter. -/
def alphaCells (g : Cells) : Prop :=
  ∀ row ∈ g, ∀ cl ∈ row, ∀ ch, cl = some ch → alphaCh ch

/-- The buffer is a rectangular `h × w` array. -/
def Rect (g : Cells) (w h : Nat) : Prop :=
  g.length = h ∧ ∀ j, j < h → (g.getD j []).length = w

/-- The word can be read, letter by letter, somewhere in the buffer. -/
def wordInCells (g : Cells) (w : Word) : Prop :=
  ∃ (d : Direction) (x y : Int), holdsRun g d x y w

/-- No cell of the buffer is empty. -/
def noNone (g : Cells) : Prop := ∀ row ∈ g, ∀ cl ∈ row, cl.isSome

/-- Read one character of the finished grid (`None` outside the grid). -/
def charAt (rows : List (List Char)) (x y : Int) : Option Char :=
  if 0 ≤ x ∧ 0 ≤ y then (rows.getD y.toNat [])[x.toNat]? else none

/-- Read `n` consecutive characters from `(x, y)` along `d`, failing if the run
leaves the grid. -/
def readRun (rows : List (List Char)) (d : Direction) : Int → Int → Nat → Option Word
  | _, _, 0 => some []
  | x, y, n + 1 =>
    match charAt rows x y with
    | none => none
    | some c =>
      match readRun rows d (x + d.next.1) (y + d.next.2) n with
      | none => none
      | some cs => some (c :: cs)

/-! ### Unfolding lemmas for the recursive placement engines -/

theorem place_word_nil (g : Grid) (rng : Rng) (h : g.wordlist = []) :
    place_word g rng =
      .ok ({ g with grid := (fill g.grid rng).1 }, (fill g.grid rng).2) := by
  rw [place_word.eq_def]
  split
  · rfl
  · rename_i word heq
    rw [h] at heq
    simp at heq

theorem place_word_snoc (g : Grid) (rng : Rng) (l : List Word) (word : Word)
    (h : g.wordlist = l ++ [word]) :
    place_word g rng =
      match tryAttempts g word (empty_count g.grid) rng with
      | none => .error { word := word, attempts := empty_count g.grid }
      | some (cells, r2) => place_word { g with wordlist := l, grid := cells } r2 := by
  rw [place_word.eq_def]
  split
  · rename_i heq
    rw [h, List.getLast?_concat] at heq
    cases heq
  · rename_i word' heq
    rw [h, List.getLast?_concat] at heq
    have hw : word = word' := by
      injection heq
    subst hw
    rw [h, List.dropLast_concat]

theorem place_word_spec_nil (g : Grid) (rng : Rng) (h : g.wordlist = []) :
    place_word_spec g rng =
      .ok ({ g with grid := (fill g.grid rng).1 }, (fill g.grid rng).2) := by
  rw [place_word_spec.eq_def]
  split
  · rfl
  · rename_i word rest heq
    rw [h] at heq
    cases heq

theorem place_word_spec_cons (g : Grid) (rng : Rng) (word : Word) (rest : List Word)
    (h : g.wordlist = word :: rest) :
    place_word_spec g rng =
      match tryAttempts g word (empty_count g.grid) rng with
      | none => .error { word := word, attempts := empty_count g.grid }
      | some (cells, r2) =>
        place_word_spec { g with wordlist := rest, grid := cells } r2 := by
  rw [place_word_spec.eq_def]
  split
  · rename_i heq
    rw [h] at heq
    cases heq
  · rename_i word' rest' heq
    rw [h] at heq
    injection heq with h1 h2
    subst h1
    subst h2
    rfl

/-! ### Basic arithmetic and cell-level lemmas -/

theorem wsub_eq_sub (a b : Nat) (hba : b ≤ a) (ha : a - b < USIZE) :
    wsub a b = a - b := by
  simp only [wsub, USIZE] at *
  omega

theorem genRange_mem (lo hi : Nat) (r : Rng) (h : lo ≤ hi) :
    lo ≤ (genRange lo hi r).1 ∧ (genRange lo hi r).1 ≤ hi := by
  have hpos : 0 < hi + 1 - lo := by omega
  have := Nat.mod_lt (rngNext r).1 hpos
  simp only [genRange]
  omega

theorem direction_step_ne_zero (d : Direction) : d.next ≠ (0, 0) := by
  cases d <;> decide

/-- Both coordinates of a direction step are in `{-1, 0, 1}`. -/
theorem direction_step_small (d : Direction) :
    (d.next.1 = -1 ∨ d.next.1 = 0 ∨ d.next.1 = 1) ∧
      (d.next.2 = -1 ∨ d.next.2 = 0 ∨ d.next.2 = 1) := by
  cases d <;> decide

theorem cellI_neg (g : Cells) (x y : Int) (h : ¬(0 ≤ x ∧ 0 ≤ y)) :
    cellI g x y = none := by
  simp [cellI, h]

theorem setCellI_read (g : Cells) (x y : Int) (c : Char) (h : inBounds g x y) :
    cellI (setCellI g x y c) x y = some c := by
  obtain ⟨hx, hy, hyl, hxl⟩ := h
  have h1 : (g.set y.toNat ((g.getD y.toNat []).set x.toNat (some c))).getD y.toNat []
      = (g.getD y.toNat []).set x.toNat (some c) := by
    rw [List.getD_eq_getElem?_getD, List.getElem?_set_self hyl, Option.getD_some]
  simp only [cellI, setCellI, if_pos (And.intro hx hy), h1]
  rw [List.getD_eq_getElem?_getD, List.getElem?_set_self hxl, Option.getD_some]

theorem setCellI_frame (g : Cells) (x y p q : Int) (c : Char)
    (h : ¬(p = x ∧ q = y)) :
    cellI (setCellI g x y c) p q = cellI g p q := by
  by_cases hxy : 0 ≤ x ∧ 0 ≤ y
  · by_cases hpq : 0 ≤ p ∧ 0 ≤ q
    · simp only [cellI, setCellI, if_pos hxy, if_pos hpq]
      by_cases hyq : y.toNat = q.toNat
      · have hyq' : y = q := by omega
        by_cases hyl : y.toNat < g.length
        · have h1 : (g.set y.toNat ((g.getD y.toNat []).set x.toNat (some c))).getD
              q.toNat [] = (g.getD y.toNat []).set x.toNat (some c) := by
            rw [← hyq, List.getD_eq_getElem?_getD, List.getElem?_set_self hyl,
              Option.getD_some]
          have hxp : x.toNat ≠ p.toNat := by
            have hpx : p ≠ x := fun he => h ⟨he, hyq'.symm⟩
            omega
          rw [h1, List.getD_eq_getElem?_getD, List.getElem?_set_ne hxp,
            ← List.getD_eq_getElem?_getD, hyq]
        · have h2 : g.length ≤ y.toNat := by omega
          have h1 : (g.set y.toNat ((g.getD y.toNat []).set x.toNat (some c))).getD
              q.toNat [] = g.getD q.toNat [] := by
            rw [← hyq, List.getD_eq_getElem?_getD,
              List.getElem?_eq_none (by simpa using h2), List.getD_eq_getElem?_getD,
              List.getElem?_eq_none h2]
          rw [h1]
      · have h1 : (g.set y.toNat ((g.getD y.toNat []).set x.toNat (some c))).getD
            q.toNat [] = g.getD q.toNat [] := by
          rw [List.getD_eq_getElem?_getD, List.getElem?_set_ne hyq,
            ← List.getD_eq_getElem?_getD]
        rw [h1]
    · simp [cellI, hpq]
  · simp [setCellI, hxy]

theorem not_onRun_offset (d : Direction) (n : Nat) :
    ∀ (x y : Int) (s : Nat), 1 ≤ s →
      ¬ onRun d (x + s * d.next.1) (y + s * d.next.2) n x y := by
  induction n with
  | zero =>
    intro x y s hs h
    exact h
  | succ n ih =>
    intro x y s hs h
    rcases h with ⟨h1, h2⟩ | h
    · have h1' : (s : Int) * d.next.1 = 0 := by linarith
      have h2' : (s : Int) * d.next.2 = 0 := by linarith
      have hs0 : (s : Int) ≠ 0 := by
        omega
      have hdx : d.next.1 = 0 := by
        rcases mul_eq_zero.mp h1' with h | h
        · exact absurd h hs0
        · exact h
      have hdy : d.next.2 = 0 := by
        rcases mul_eq_zero.mp h2' with h | h
        · exact absurd h hs0
        · exact h
      exact direction_step_ne_zero d (Prod.ext_iff.mpr ⟨hdx, hdy⟩)
    · have e1 : x + s * d.next.1 + d.next.1 = x + ((s + 1 : Nat) : Int) * d.next.1 := by
        push_cast
        ring
      have e2 : y + s * d.next.2 + d.next.2 = y + ((s + 1 : Nat) : Int) * d.next.2 := by
        push_cast
        ring
      rw [e1, e2] at h
      exact ih x y (s + 1) (by omega) h

/-- The start of a run is never revisited by the rest of the run. -/
theorem not_onRun_start (d : Direction) (x y : Int) (n : Nat) :
    ¬ onRun d (x + d.next.1) (y + d.next.2) n x y := by
  have := not_onRun_offset d n x y 1 (by omega)
  simpa using this

theorem inBounds_of_cellI_some (g : Cells) (x y : Int) (c : Char)
    (h : cellI g x y = some c) : inBounds g x y := by
  simp only [cellI] at h
  split at h
  · rename_i hxy
    have hy : y.toNat < g.length := by
      by_contra hy
      rw [show g.getD y.toNat [] = [] from by
        rw [List.getD_eq_getElem?_getD, List.getElem?_eq_none (by omega)]
        rfl] at h
      simp [List.getD] at h
    have hx : x.toNat < (g.getD y.toNat []).length := by
      by_contra hx
      rw [List.getD_eq_getElem?_getD, List.getElem?_eq_none (by omega)] at h
      simp at h
    exact ⟨hxy.1, hxy.2, hy, hx⟩
  · cases h

theorem setCellI_dims (g : Cells) (x y : Int) (c : Char) :
    (setCellI g x y c).length = g.length ∧
      ∀ j, ((setCellI g x y c).getD j []).length = (g.getD j []).length := by
  by_cases hxy : 0 ≤ x ∧ 0 ≤ y
  · simp only [setCellI, if_pos hxy]
    refine ⟨List.length_set g _ _, fun j => ?_⟩
    by_cases hj : j = y.toNat
    · by_cases hl : y.toNat < g.length
      · rw [hj, List.getD_eq_getElem?_getD, List.getElem?_set_self hl, Option.getD_some,
          List.length_set]
      · have hl' : g.length ≤ y.toNat := by omega
        rw [hj, List.getD_eq_getElem?_getD, List.getElem?_eq_none (by simpa using hl'),
          List.getD_eq_getElem?_getD, List.getElem?_eq_none hl']
    · rw [List.getD_eq_getElem?_getD, List.getElem?_set_ne (fun hh => hj hh.symm),
        ← List.getD_eq_getElem?_getD]
  · simp [setCellI, hxy]

theorem inBounds_setCellI (g : Cells) (x y p q : Int) (c : Char) :
    inBounds (setCellI g x y c) p q ↔ inBounds g p q := by
  obtain ⟨h1, h2⟩ := setCellI_dims g x y c
  unfold inBounds
  rw [h1, h2]

/-! ### Lemmas about the two loops of `try_word` -/

theorem writeWord_frame (w : Word) : ∀ (g : Cells) (d : Direction) (x y p q : Int),
    ¬ onRun d x y w.length p q →
    cellI (writeWord g w d x y) p q = cellI g p q := by
  induction w with
  | nil =>
    intro g d x y p q _
    rfl
  | cons a cs ih =>
    intro g d x y p q h
    simp only [List.length_cons, onRun, not_or] at h
    obtain ⟨h1, h2⟩ := h
    simp only [writeWord]
    rw [ih _ d _ _ p q h2, setCellI_frame g x y p q a h1]

theorem writeWord_dims (w : Word) : ∀ (g : Cells) (d : Direction) (x y : Int),
    (writeWord g w d x y).length = g.length ∧
      ∀ j, ((writeWord g w d x y).getD j []).length = (g.getD j []).length := by
  induction w with
  | nil =>
    intro g d x y
    exact ⟨rfl, fun _ => rfl⟩
  | cons a cs ih =>
    intro g d x y
    simp only [writeWord]
    obtain ⟨hs1, hs2⟩ := setCellI_dims g x y a
    obtain ⟨hw1, hw2⟩ := ih (setCellI g x y a) d (x + d.next.1) (y + d.next.2)
    exact ⟨hw1.trans hs1, fun j => (hw2 j).trans (hs2 j)⟩

theorem scanOk_cons (g : Cells) (c : Char) (cs : Word) (d : Direction) (x y : Int) :
    scanOk g (c :: cs) d x y = true ↔
      (cellI g x y = none ∨ cellI g x y = some c) ∧
        scanOk g cs d (x + d.next.1) (y + d.next.2) = true := by
  simp only [scanOk, Bool.and_eq_true]
  cases hc : cellI g x y <;> simp

theorem scanOk_set_off_run (w : Word) : ∀ (g : Cells) (d : Direction) (x y p q : Int)
    (c : Char), ¬ onRun d x y w.length p q →
    scanOk (setCellI g p q c) w d x y = scanOk g w d x y := by
  induction w with
  | nil =>
    intro g d x y p q c _
    rfl
  | cons a cs ih =>
    intro g d x y p q c h
    simp only [List.length_cons, onRun, not_or] at h
    obtain ⟨h1, h2⟩ := h
    simp only [scanOk]
    rw [setCellI_frame g p q x y c (fun hh => h1 ⟨hh.1.symm, hh.2.symm⟩),
      ih g d _ _ p q c h2]

theorem try_word_ok (g : Cells) (w : Word) (d : Direction) (x0 y0 : Nat)
    (cells : Cells) (h : try_word g w d x0 y0 = .ok cells) :
    scanOk g w d x0 y0 = true ∧ cells = writeWord g w d x0 y0 := by
  simp only [try_word] at h
  split at h
  · rename_i hs
    exact ⟨hs, by injection h with hh; exact hh.symm⟩
  · cases h

theorem writeWord_preserves_occupied (w : Word) : ∀ (g : Cells) (d : Direction)
    (x y : Int), scanOk g w d x y = true → ∀ (p q : Int) (c : Char),
    cellI g p q = some c → cellI (writeWord g w d x y) p q = some c := by
  induction w with
  | nil =>
    intro g d x y _ p q c hpc
    exact hpc
  | cons a cs ih =>
    intro g d x y hscan p q c hpc
    rw [scanOk_cons] at hscan
    obtain ⟨hcell, hrest⟩ := hscan
    simp only [writeWord]
    by_cases hpq : p = x ∧ q = y
    · obtain ⟨rfl, rfl⟩ := hpq
      have hac : a = c := by
        rcases hcell with h | h
        · rw [hpc] at h
          cases h
        · rw [hpc] at h
          injection h with h'
          exact h'.symm
      have hb := inBounds_of_cellI_some g p q c hpc
      rw [writeWord_frame cs (setCellI g p q a) d _ _ p q (not_onRun_start d p q cs.length)]
      rw [setCellI_read g p q a hb, hac]
    · have hc2 : cellI (setCellI g x y a) p q = some c := by
        rw [setCellI_frame g x y p q a hpq]
        exact hpc
      have hs2 : scanOk (setCellI g x y a) cs d (x + d.next.1) (y + d.next.2) = true := by
        rw [scanOk_set_off_run cs g d _ _ x y a (not_onRun_start d x y cs.length)]
        exact hrest
      exact ih (setCellI g x y a) d _ _ hs2 p q c hc2

theorem writeWord_holdsRun (w : Word) : ∀ (g : Cells) (d : Direction) (x y : Int),
    scanOk g w d x y = true → runInBounds g d x y w.length →
    holdsRun (writeWord g w d x y) d x y w := by
  induction w with
  | nil =>
    intro g d x y _ _
    trivial
  | cons a cs ih =>
    intro g d x y hscan hin
    rw [scanOk_cons] at hscan
    obtain ⟨hcell, hrest⟩ := hscan
    simp only [writeWord]
    refine ⟨?_, ?_⟩
    · rw [writeWord_frame cs (setCellI g x y a) d _ _ x y (not_onRun_start d x y cs.length)]
      exact setCellI_read g x y a (hin x y (Or.inl ⟨rfl, rfl⟩))
    · apply ih (setCellI g x y a) d _ _
      · rw [scanOk_set_off_run cs g d _ _ x y a (not_onRun_start d x y cs.length)]
        exact hrest
      · intro p q hpq
        rw [inBounds_setCellI]
        exact hin p q (Or.inr hpq)

theorem holdsRun_mono (w : Word) : ∀ (g g2 : Cells) (d : Direction) (x y : Int),
    (∀ p q c, cellI g p q = some c → cellI g2 p q = some c) →
    holdsRun g d x y w → holdsRun g2 d x y w := by
  induction w with
  | nil =>
    intro g g2 d x y _ _
    trivial
  | cons a cs ih =>
    intro g g2 d x y hmono hh
    obtain ⟨h1, h2⟩ := hh
    exact ⟨hmono _ _ _ h1, ih g g2 d _ _ hmono h2⟩

/-! ### Lemmas about `fill` -/

theorem alpha_ofNat (k : Nat) (h : k < 26) : alphaCh (Char.ofNat (65 + k)) := by
  interval_cases k <;> exact ⟨by decide, by decide⟩

theorem fillRow_length (row : List (Option Char)) :
    ∀ r, (fillRow row r).1.length = row.length := by
  induction row with
  | nil =>
    intro r
    rfl
  | cons c cs ih =>
    intro r
    cases c <;> simp [fillRow, fillCell, ih]

theorem fillRow_occupied (row : List (Option Char)) :
    ∀ (r : Rng) (i : Nat) (c : Char), row[i]? = some (some c) →
      (fillRow row r).1[i]? = some (some c) := by
  induction row with
  | nil =>
    intro r i c h
    cases h
  | cons cl cls ih =>
    intro r i c h
    cases i with
    | zero =>
      rw [List.getElem?_cons_zero] at h
      injection h with h'
      subst h'
      simp [fillRow, fillCell]
    | succ i =>
      rw [List.getElem?_cons_succ] at h
      cases cl <;> simpa [fillRow, fillCell] using ih _ i c h

theorem fillRow_isSome (row : List (Option Char)) :
    ∀ (r : Rng), ∀ cl ∈ (fillRow row r).1, cl.isSome := by
  induction row with
  | nil =>
    intro r cl h
    cases h
  | cons c cs ih =>
    intro r cl h
    cases c with
    | none =>
      simp only [fillRow, fillCell, List.mem_cons] at h
      rcases h with h | h
      · simp [h]
      · exact ih _ cl h
    | some a =>
      simp only [fillRow, fillCell, List.mem_cons] at h
      rcases h with h | h
      · simp [h]
      · exact ih _ cl h

theorem fillRow_alpha (row : List (Option Char)) :
    ∀ (r : Rng), (∀ cl ∈ row, ∀ ch, cl = some ch → alphaCh ch) →
      ∀ cl ∈ (fillRow row r).1, ∀ ch, cl = some ch → alphaCh ch := by
  induction row with
  | nil =>
    intro r _ cl h
    cases h
  | cons c cs ih =>
    intro r halpha cl hmem ch hch
    cases c with
    | none =>
      simp only [fillRow, fillCell, List.mem_cons] at hmem
      rcases hmem with h | h
      · subst h
        injection hch with h'
        subst h'
        exact alpha_ofNat _ (Nat.mod_lt _ (by omega))
      · exact ih _ (fun x hx => halpha x (List.mem_cons_of_mem _ hx)) cl h ch hch
    | some a =>
      simp only [fillRow, fillCell, List.mem_cons] at hmem
      rcases hmem with h | h
      · subst h
        exact halpha (some a) (List.mem_cons_self _ _) ch hch
      · exact ih _ (fun x hx => halpha x (List.mem_cons_of_mem _ hx)) cl h ch hch

theorem fill_rows (g : Cells) : ∀ (r : Rng) (j : Nat),
    ∃ r1, (fill g r).1[j]? = (g[j]?).map fun row => (fillRow row r1).1 := by
  induction g with
  | nil =>
    intro r j
    exact ⟨r, rfl⟩
  | cons row rows ih =>
    intro r j
    cases j with
    | zero =>
      exact ⟨r, by simp [fill]⟩
    | succ j =>
      obtain ⟨r1, h1⟩ := ih (fillRow row r).2 j
      exact ⟨r1, by simpa [fill] using h1⟩

theorem fill_length (g : Cells) : ∀ (r : Rng), (fill g r).1.length = g.length := by
  induction g with
  | nil =>
    intro r
    rfl
  | cons row rows ih =>
    intro r
    simp [fill, ih]

theorem fill_dims (g : Cells) (r : Rng) :
    (fill g r).1.length = g.length ∧
      ∀ j, ((fill g r).1.getD j []).length = (g.getD j []).length := by
  refine ⟨fill_length g r, fun j => ?_⟩
  obtain ⟨r1, h1⟩ := fill_rows g r j
  rw [List.getD_eq_getElem?_getD, h1, List.getD_eq_getElem?_getD]
  cases hj : g[j]? with
  | none => rfl
  | some row => simp [fillRow_length]

theorem fill_occupied (g : Cells) (r : Rng) (p q : Int) (c : Char)
    (h : cellI g p q = some c) : cellI (fill g r).1 p q = some c := by
  simp only [cellI] at h ⊢
  split at h
  · rename_i hpq
    rw [if_pos hpq]
    obtain ⟨r1, h1⟩ := fill_rows g r q.toNat
    have hrow : (fill g r).1.getD q.toNat []
        = ((g[q.toNat]?).map fun row => (fillRow row r1).1).getD [] := by
      rw [List.getD_eq_getElem?_getD, h1]
    have hg : g.getD q.toNat [] = (g[q.toNat]?).getD [] :=
      List.getD_eq_getElem?_getD g q.toNat []
    rw [hg] at h
    rw [hrow]
    cases hj : g[q.toNat]? with
    | none =>
      rw [hj] at h
      simp [List.getD_eq_getElem?_getD] at h
    | some row =>
      rw [hj] at h
      simp only [Option.getD_some] at h
      have hx : row[p.toNat]? = some (some c) := by
        rw [List.getD_eq_getElem?_getD row p.toNat none] at h
        cases hrx : row[p.toNat]? with
        | none =>
          rw [hrx] at h
          cases h
        | some cl =>
          rw [hrx] at h
          simp only [Option.getD_some] at h
          rw [h]
      show (fillRow row r1).1.getD p.toNat none = some c
      rw [List.getD_eq_getElem?_getD, fillRow_occupied row r1 p.toNat c hx]
      rfl
  · cases h

theorem fill_isSome (g : Cells) : ∀ (r : Rng), ∀ row ∈ (fill g r).1, ∀ cl ∈ row,
    cl.isSome := by
  induction g with
  | nil =>
    intro r row h
    cases h
  | cons row rows ih =>
    intro r row' hmem cl hcl
    simp only [fill, List.mem_cons] at hmem
    rcases hmem with h | h
    · subst h
      exact fillRow_isSome row r cl hcl
    · exact ih _ row' h cl hcl

theorem fill_alpha (g : Cells) : ∀ (r : Rng), alphaCells g → alphaCells (fill g r).1 := by
  induction g with
  | nil =>
    intro r _ row h
    cases h
  | cons row rows ih =>
    intro r halpha row' hmem cl hcl ch hch
    simp only [fill, List.mem_cons] at hmem
    rcases hmem with h | h
    · subst h
      exact fillRow_alpha row r (halpha row (List.mem_cons_self _ _)) cl hcl ch hch
    · exact ih _ (fun rw2 hrw2 => halpha rw2 (List.mem_cons_of_mem _ hrw2)) row' h cl hcl ch hch

/-! ### Grid shape and the legal starting ranges -/

theorem rect_replicate (w h : Nat) :
    Rect (List.replicate h (List.replicate w (none : Option Char))) w h := by
  refine ⟨List.length_replicate _ _, fun j hj => ?_⟩
  rw [List.getD_eq_getElem?_getD, List.getElem?_replicate, if_pos hj, Option.getD_some,
    List.length_replicate]

theorem rect_writeWord (g : Cells) (w h : Nat) (word : Word) (d : Direction)
    (x y : Int) (hr : Rect g w h) : Rect (writeWord g word d x y) w h := by
  obtain ⟨hd1, hd2⟩ := writeWord_dims word g d x y
  exact ⟨hd1.trans hr.1, fun j hj => (hd2 j).trans (hr.2 j hj)⟩

theorem rect_fill (g : Cells) (w h : Nat) (r : Rng) (hr : Rect g w h) :
    Rect (fill g r).1 w h := by
  obtain ⟨hd1, hd2⟩ := fill_dims g r
  exact ⟨hd1.trans hr.1, fun j hj => (hd2 j).trans (hr.2 j hj)⟩

theorem ranges_eq (d : Direction) (len w h : Nat) (h1 : 1 ≤ len) (h2 : len ≤ w)
    (h3 : len ≤ h) (hw : w < USIZE) (hh : h < USIZE) :
    Direction.ranges d len w h =
      ((if d.next.1 < 0 then len - 1 else 0, if d.next.1 < 0 then w - 1 else w - len),
       (if d.next.2 < 0 then len - 1 else 0, if d.next.2 < 0 then h - 1 else h - len)) := by
  have e1 : wsub len 1 = len - 1 := wsub_eq_sub len 1 h1 (by omega)
  have e2 : wsub w 1 = w - 1 := wsub_eq_sub w 1 (by omega) (by omega)
  have e3 : wsub w len = w - len := wsub_eq_sub w len h2 (by omega)
  have e4 : wsub h 1 = h - 1 := wsub_eq_sub h 1 (by omega) (by omega)
  have e5 : wsub h len = h - len := wsub_eq_sub h len h3 (by omega)
  cases d <;> simp [Direction.ranges, Direction.next, e1, e2, e3, e4, e5]

theorem ranges_nonempty (d : Direction) (len w h : Nat) (h1 : 1 ≤ len) (h2 : len ≤ w)
    (h3 : len ≤ h) (hw : w < USIZE) (hh : h < USIZE) :
    (d.ranges len w h).1.1 ≤ (d.ranges len w h).1.2 ∧
      (d.ranges len w h).2.1 ≤ (d.ranges len w h).2.2 := by
  rw [ranges_eq d len w h h1 h2 h3 hw hh]
  constructor <;> dsimp only <;> split <;> omega

/-- Arithmetic characterisation of the points of a run. -/
theorem onRun_iff (d : Direction) : ∀ (n : Nat) (x y p q : Int),
    onRun d x y n p q ↔
      ∃ k : Nat, k < n ∧ p = x + k * d.next.1 ∧ q = y + k * d.next.2 := by
  intro n
  induction n with
  | zero =>
    intro x y p q
    simp [onRun]
  | succ n ih =>
    intro x y p q
    simp only [onRun, ih]
    constructor
    · rintro (⟨rfl, rfl⟩ | ⟨k, hk, rfl, rfl⟩)
      · exact ⟨0, by omega, by simp, by simp⟩
      · refine ⟨k + 1, by omega, by push_cast; ring, by push_cast; ring⟩
    · rintro ⟨k, hk, rfl, rfl⟩
      cases k with
      | zero =>
        left
        constructor <;> simp
      | succ k =>
        right
        exact ⟨k, by omega, by push_cast; ring, by push_cast; ring⟩

/-- Starting inside the legal ranges keeps the whole run inside a rectangular grid. -/
theorem run_inBounds_of_ranges (g : Cells) (d : Direction) (len w h x y : Nat)
    (hrect : Rect g w h) (h1 : 1 ≤ len) (h2 : len ≤ w) (h3 : len ≤ h)
    (hw : w < USIZE) (hh : h < USIZE)
    (hx : (d.ranges len w h).1.1 ≤ x ∧ x ≤ (d.ranges len w h).1.2)
    (hy : (d.ranges len w h).2.1 ≤ y ∧ y ≤ (d.ranges len w h).2.2) :
    runInBounds g d x y len := by
  intro p q hpq
  rw [onRun_iff] at hpq
  obtain ⟨k, hk, rfl, rfl⟩ := hpq
  rw [ranges_eq d len w h h1 h2 h3 hw hh] at hx hy
  have hcomp : 0 ≤ ((x : Int) + k * d.next.1) ∧ ((x : Int) + k * d.next.1).toNat < w ∧
      0 ≤ ((y : Int) + k * d.next.2) ∧ ((y : Int) + k * d.next.2).toNat < h := by
    cases d <;> simp [Direction.next] at hx hy ⊢ <;> omega
  obtain ⟨hcx, hcxw, hcy, hcyh⟩ := hcomp
  refine ⟨hcx, hcy, ?_, ?_⟩
  · rw [hrect.1]
    exact hcyh
  · rw [hrect.2 _ hcyh]
    exact hcxw

/-! ### The retry loop -/

theorem attempt_spec (g : Grid) (word : Word) (rng : Rng) :
    ∃ (d : Direction) (x y : Nat),
      (attempt g word rng).1 = try_word g.grid word d x y ∧
      ((d.ranges word.length g.width g.height).1.1 ≤
          (d.ranges word.length g.width g.height).1.2 →
        (d.ranges word.length g.width g.height).1.1 ≤ x ∧
          x ≤ (d.ranges word.length g.width g.height).1.2) ∧
      ((d.ranges word.length g.width g.height).2.1 ≤
          (d.ranges word.length g.width g.height).2.2 →
        (d.ranges word.length g.width g.height).2.1 ≤ y ∧
          y ≤ (d.ranges word.length g.width g.height).2.2) := by
  refine ⟨Direction.gen ((rngNext rng).1 % 8), _, _, rfl, ?_, ?_⟩
  · intro hne
    exact genRange_mem _ _ _ hne
  · intro hne
    exact genRange_mem _ _ _ hne

theorem tryAttempts_ok (g : Grid) (word : Word) : ∀ (fuel : Nat) (rng : Rng)
    (cells : Cells) (r2 : Rng), tryAttempts g word fuel rng = some (cells, r2) →
    ∃ (d : Direction) (x y : Nat),
      try_word g.grid word d x y = .ok cells ∧
      ((d.ranges word.length g.width g.height).1.1 ≤
          (d.ranges word.length g.width g.height).1.2 →
        (d.ranges word.length g.width g.height).1.1 ≤ x ∧
          x ≤ (d.ranges word.length g.width g.height).1.2) ∧
      ((d.ranges word.length g.width g.height).2.1 ≤
          (d.ranges word.length g.width g.height).2.2 →
        (d.ranges word.length g.width g.height).2.1 ≤ y ∧
          y ≤ (d.ranges word.length g.width g.height).2.2) := by
  intro fuel
  induction fuel with
  | zero =>
    intro rng cells r2 h
    cases h
  | succ fuel ih =>
    intro rng cells r2 h
    simp only [tryAttempts] at h
    obtain ⟨d, x, y, heq, hx, hy⟩ := attempt_spec g word rng
    cases ha : (attempt g word rng).1 with
    | error e =>
      rw [show attempt g word rng = ((attempt g word rng).1, (attempt g word rng).2)
          from rfl, ha] at h
      exact ih _ cells r2 h
    | ok cells1 =>
      rw [show attempt g word rng = ((attempt g word rng).1, (attempt g word rng).2)
          from rfl, ha] at h
      injection h with h'
      injection h' with h1 h2
      subst h1
      rw [ha] at heq
      exact ⟨d, x, y, heq.symm, hx, hy⟩

/-! ### Facts about `Grid.new` -/

theorem max?_le (l : List Nat) (m : Nat) (h : l.max? = some m) : ∀ a ∈ l, a ≤ m := by
  intro a ha
  have hm := List.max?_eq_some_iff (le_refl) (max_choice) (fun a b c => max_le_iff) |>.mp h
  exact hm.2 a ha

theorem max?_mem (l : List Nat) (m : Nat) (h : l.max? = some m) : m ∈ l := by
  have hm := List.max?_eq_some_iff (le_refl) (max_choice) (fun a b c => max_le_iff) |>.mp h
  exact hm.1

theorem Grid.new_eq (wordlist : List Word) (w0 h0 : Option Nat) (g0 : Grid)
    (h : Grid.new wordlist w0 h0 = some g0) :
    ∃ longest, (wordlist.map List.length).max? = some longest ∧
      g0.wordlist = wordlist ∧
      g0.width = max longest (w0.getD (ceilSqrt (2 * (wordlist.map List.length).sum))) ∧
      g0.height = max longest (h0.getD (ceilSqrt (2 * (wordlist.map List.length).sum))) ∧
      g0.grid = List.replicate g0.height (List.replicate g0.width none) := by
  unfold Grid.new at h
  cases hm : (wordlist.map List.length).max? with
  | none =>
    rw [hm] at h
    cases h
  | some longest =>
    rw [hm] at h
    injection h with h'
    subst h'
    exact ⟨longest, rfl, rfl, rfl, rfl, rfl⟩

/-- The computed dimensions dominate the length of every word in the list. -/
theorem Grid.new_dims_ge (wordlist : List Word) (w0 h0 : Option Nat) (g0 : Grid)
    (h : Grid.new wordlist w0 h0 = some g0) :
    ∀ w ∈ wordlist, w.length ≤ g0.width ∧ w.length ≤ g0.height := by
  obtain ⟨longest, hm, _, hw, hh, _⟩ := Grid.new_eq wordlist w0 h0 g0 h
  intro w hwmem
  have hle : w.length ≤ longest :=
    max?_le _ _ hm w.length (List.mem_map_of_mem _ hwmem)
  rw [hw, hh]
  exact ⟨le_trans hle (le_max_left _ _), le_trans hle (le_max_left _ _)⟩

/-! ### Shuffle is a permutation -/

theorem shuffle_perm : ∀ (l : List Word) (r : Rng), ((shuffle l r).1).Perm l := by
  intro l
  induction l with
  | nil =>
    intro r
    exact List.Perm.refl _
  | cons x xs ih =>
    intro r
    simp only [shuffle]
    refine List.Perm.trans (List.perm_insertIdx x _ ?_) (List.Perm.cons x (ih r))
    exact Nat.le_of_lt_succ (Nat.mod_lt _ (by omega))

theorem shuffle_mem (l : List Word) (r : Rng) (w : Word) :
    w ∈ (shuffle l r).1 ↔ w ∈ l :=
  (shuffle_perm l r).mem_iff

/-! ### Alphabet preservation through placement -/

theorem getD_mem (g : Cells) (j : Nat) (h : j < g.length) : g.getD j [] ∈ g := by
  rw [List.getD_eq_getElem?_getD, List.getElem?_eq_getElem h, Option.getD_some]
  exact List.getElem_mem h

theorem setCellI_alpha (g : Cells) (x y : Int) (c : Char) (hc : alphaCh c)
    (hg : alphaCells g) : alphaCells (setCellI g x y c) := by
  unfold setCellI
  split
  · intro row hrow cl hcl ch hch
    rcases List.mem_or_eq_of_mem_set hrow with hrow | hrow
    · exact hg row hrow cl hcl ch hch
    · subst hrow
      rcases List.mem_or_eq_of_mem_set hcl with hcl | hcl
      · by_cases hyl : y.toNat < g.length
        · exact hg _ (getD_mem g _ hyl) cl hcl ch hch
        · rw [List.getD_eq_getElem?_getD, List.getElem?_eq_none (by omega)] at hcl
          cases hcl
      · subst hcl
        injection hch with h'
        subst h'
        exact hc
  · exact hg

theorem writeWord_alpha (w : Word) : ∀ (g : Cells) (d : Direction) (x y : Int),
    (∀ c ∈ w, alphaCh c) → alphaCells g → alphaCells (writeWord g w d x y) := by
  induction w with
  | nil =>
    intro g d x y _ hg
    exact hg
  | cons c cs ih =>
    intro g d x y hw hg
    simp only [writeWord]
    exact ih _ d _ _ (fun a ha => hw a (List.mem_cons_of_mem _ ha))
      (setCellI_alpha g x y c (hw c (List.mem_cons_self _ _)) hg)

/-! ### The main placement invariant -/

theorem place_word_ok_invariant : ∀ (n : Nat) (g : Grid) (rng : Rng) (g2 : Grid)
    (r2 : Rng), g.wordlist.length = n →
    place_word g rng = .ok (g2, r2) →
    Rect g.grid g.width g.height →
    g.width < USIZE → g.height < USIZE →
    (∀ w ∈ g.wordlist, 1 ≤ w.length ∧ w.length ≤ g.width ∧ w.length ≤ g.height) →
    g2.width = g.width ∧ g2.height = g.height ∧
      Rect g2.grid g.width g.height ∧
      noNone g2.grid ∧
      (∀ p q c, cellI g.grid p q = some c → cellI g2.grid p q = some c) ∧
      (∀ w ∈ g.wordlist, wordInCells g2.grid w) := by
  intro n
  induction n using Nat.strong_induction_on with
  | _ n ih =>
    intro g rng g2 r2 hn hpw hrect hw hh hwords
    rcases heq : g.wordlist.getLast? with _ | word
    · have hnil : g.wordlist = [] := List.getLast?_eq_none_iff.mp heq
      rw [place_word_nil g rng hnil] at hpw
      injection hpw with hpair
      have hg2 : g2 = { g with grid := (fill g.grid rng).1 } :=
        (congrArg Prod.fst hpair).symm
      subst hg2
      refine ⟨rfl, rfl, rect_fill _ _ _ rng hrect, ?_, ?_, ?_⟩
      · exact fill_isSome g.grid rng
      · intro p q c hc
        exact fill_occupied g.grid rng p q c hc
      · intro w hwmem
        rw [hnil] at hwmem
        cases hwmem
    · have hne : g.wordlist ≠ [] := by
        intro he
        rw [he] at heq
        cases heq
      have hlast : g.wordlist.getLast hne = word := by
        rw [List.getLast?_eq_getLast _ hne] at heq
        injection heq
      have hsplit : g.wordlist = g.wordlist.dropLast ++ [word] := by
        conv_lhs => rw [← List.dropLast_append_getLast hne]
        rw [hlast]
      rw [place_word_snoc g rng _ word hsplit] at hpw
      cases hta : tryAttempts g word (empty_count g.grid) rng with
      | none =>
        rw [hta] at hpw
        cases hpw
      | some pr =>
        obtain ⟨cells, r3⟩ := pr
        rw [hta] at hpw
        obtain ⟨d, x, y, htw, hxr, hyr⟩ :=
          tryAttempts_ok g word (empty_count g.grid) rng cells r3 hta
        obtain ⟨hscan, hcells⟩ := try_word_ok g.grid word d x y cells htw
        obtain ⟨hw1, hw2, hw3⟩ := hwords word
          (by rw [hsplit]; exact List.mem_append.mpr (Or.inr (List.mem_singleton.mpr rfl)))
        have hnonempty := ranges_nonempty d word.length g.width g.height hw1 hw2 hw3 hw hh
        have hrun : runInBounds g.grid d x y word.length :=
          run_inBounds_of_ranges g.grid d word.length g.width g.height x y hrect
            hw1 hw2 hw3 hw hh (hxr hnonempty.1) (hyr hnonempty.2)
        have hrect2 : Rect cells g.width g.height := by
          rw [hcells]
          exact rect_writeWord g.grid g.width g.height word d x y hrect
        have hpres : ∀ p q c, cellI g.grid p q = some c → cellI cells p q = some c := by
          rw [hcells]
          exact writeWord_preserves_occupied word g.grid d x y hscan
        have hholds : holdsRun cells d x y word := by
          rw [hcells]
          exact writeWord_holdsRun word g.grid d x y hscan hrun
        have hlen : (g.wordlist.dropLast).length < n := by
          rw [← hn, List.length_dropLast]
          have := List.length_pos.mpr hne
          omega
        have ihres := ih _ hlen { g with wordlist := g.wordlist.dropLast, grid := cells }
          r3 g2 r2 rfl hpw hrect2 hw hh
          (fun w hwmem => hwords w (by
            rw [hsplit]
            exact List.mem_append.mpr (Or.inl hwmem)))
        obtain ⟨ih1, ih2, ih3, ih4, ih5, ih6⟩ := ihres
        refine ⟨ih1, ih2, ih3, ih4, ?_, ?_⟩
        · intro p q c hc
          exact ih5 p q c (hpres p q c hc)
        · intro w hwmem
          rw [hsplit] at hwmem
          rcases List.mem_append.mp hwmem with hmem | hmem
          · exact ih6 w hmem
          · rw [List.mem_singleton] at hmem
            subst hmem
            exact ⟨d, x, y, holdsRun_mono w cells g2.grid d x y ih5 hholds⟩

theorem place_word_ok_alpha : ∀ (n : Nat) (g : Grid) (rng : Rng) (g2 : Grid)
    (r2 : Rng), g.wordlist.length = n →
    place_word g rng = .ok (g2, r2) →
    (∀ w ∈ g.wordlist, ∀ c ∈ w, alphaCh c) →
    alphaCells g.grid →
    alphaCells g2.grid := by
  intro n
  induction n using Nat.strong_induction_on with
  | _ n ih =>
    intro g rng g2 r2 hn hpw hwords halpha
    rcases heq : g.wordlist.getLast? with _ | word
    · have hnil : g.wordlist = [] := List.getLast?_eq_none_iff.mp heq
      rw [place_word_nil g rng hnil] at hpw
      injection hpw with hpair
      have hg2 : g2 = { g with grid := (fill g.grid rng).1 } :=
        (congrArg Prod.fst hpair).symm
      subst hg2
      exact fill_alpha g.grid rng halpha
    · have hne : g.wordlist ≠ [] := by
        intro he
        rw [he] at heq
        cases heq
      have hlast : g.wordlist.getLast hne = word := by
        rw [List.getLast?_eq_getLast _ hne] at heq
        injection heq
      have hsplit : g.wordlist = g.wordlist.dropLast ++ [word] := by
        conv_lhs => rw [← List.dropLast_append_getLast hne]
        rw [hlast]
      rw [place_word_snoc g rng _ word hsplit] at hpw
      cases hta : tryAttempts g word (empty_count g.grid) rng with
      | none =>
        rw [hta] at hpw
        cases hpw
      | some pr =>
        obtain ⟨cells, r3⟩ := pr
        rw [hta] at hpw
        obtain ⟨d, x, y, htw, _, _⟩ :=
          tryAttempts_ok g word (empty_count g.grid) rng cells r3 hta
        obtain ⟨hscan, hcells⟩ := try_word_ok g.grid word d x y cells htw
        have halpha2 : alphaCells cells := by
          rw [hcells]
          exact writeWord_alpha word g.grid d x y
            (hwords word (by
              rw [hsplit]
              exact List.mem_append.mpr (Or.inr (List.mem_singleton.mpr rfl)))) halpha
        have hlen : (g.wordlist.dropLast).length < n := by
          rw [← hn, List.length_dropLast]
          have := List.length_pos.mpr hne
          omega
        exact ih _ hlen { g with wordlist := g.wordlist.dropLast, grid := cells }
          r3 g2 r2 rfl hpw
          (fun w hwmem => hwords w (by
            rw [hsplit]
            exact List.mem_append.mpr (Or.inl hwmem))) halpha2

/-! ### The source engine consumes the word list back to front -/

theorem tryAttempts_wordlist_irrel (g : Grid) (l : List Word) (word : Word) :
    ∀ (fuel : Nat) (rng : Rng),
      tryAttempts { g with wordlist := l } word fuel rng = tryAttempts g word fuel rng := by
  intro fuel
  induction fuel with
  | zero =>
    intro rng
    rfl
  | succ fuel ihf =>
    intro rng
    simp only [tryAttempts]
    have ha : attempt { g with wordlist := l } word rng = attempt g word rng := rfl
    rw [ha]
    rcases hatt : attempt g word rng with ⟨res, r3⟩
    cases res with
    | error e => exact ihf r3
    | ok cells => rfl

theorem place_word_eq_spec_reverse : ∀ (n : Nat) (g : Grid) (rng : Rng),
    g.wordlist.length = n →
    place_word g rng = place_word_spec { g with wordlist := g.wordlist.reverse } rng := by
  intro n
  induction n using Nat.strong_induction_on with
  | _ n ih =>
    intro g rng hn
    rcases heq : g.wordlist.getLast? with _ | word
    · have hnil : g.wordlist = [] := List.getLast?_eq_none_iff.mp heq
      rw [place_word_nil g rng hnil,
        place_word_spec_nil _ rng (by rw [hnil]; rfl)]
      rw [hnil]
      rfl
    · have hne : g.wordlist ≠ [] := by
        intro he
        rw [he] at heq
        cases heq
      have hlast : g.wordlist.getLast hne = word := by
        rw [List.getLast?_eq_getLast _ hne] at heq
        injection heq
      have hsplit : g.wordlist = g.wordlist.dropLast ++ [word] := by
        conv_lhs => rw [← List.dropLast_append_getLast hne]
        rw [hlast]
      have hrev : ({ g with wordlist := g.wordlist.reverse }).wordlist
          = word :: g.wordlist.dropLast.reverse := by
        show g.wordlist.reverse = word :: g.wordlist.dropLast.reverse
        conv_lhs => rw [hsplit]
        rw [List.reverse_append]
        rfl
      rw [place_word_snoc g rng _ word hsplit,
        place_word_spec_cons _ rng word _ hrev]
      have htA : tryAttempts { g with wordlist := g.wordlist.reverse } word
          (empty_count ({ g with wordlist := g.wordlist.reverse }).grid) rng
          = tryAttempts g word (empty_count g.grid) rng :=
        tryAttempts_wordlist_irrel g _ word _ rng
      rw [htA]
      cases hta : tryAttempts g word (empty_count g.grid) rng with
      | none => rfl
      | some pr =>
        obtain ⟨cells, r3⟩ := pr
        have hlen : (g.wordlist.dropLast).length < n := by
          rw [← hn, List.length_dropLast]
          have := List.length_pos.mpr hne
          omega
        have ihres := ih _ hlen
          { g with wordlist := g.wordlist.dropLast, grid := cells } r3 rfl
        exact ihres

/-! ### Reading the finished character grid -/

theorem charAt_collapse (g : Cells) (x y : Int) (c : Char)
    (h : cellI g x y = some c) : charAt (collapse g) x y = some c := by
  simp only [cellI] at h
  split at h
  · rename_i hxy
    simp only [charAt, collapse, if_pos hxy]
    have hrow : ((g.map fun row => row.map fun cl => cl.getD 'A').getD y.toNat [])
        = (g.getD y.toNat []).map fun cl => cl.getD 'A' := by
      rw [List.getD_eq_getElem?_getD, List.getElem?_map, List.getD_eq_getElem?_getD]
      cases g[y.toNat]? <;> rfl
    rw [hrow, List.getElem?_map]
    have hx : (g.getD y.toNat [])[x.toNat]? = some (some c) := by
      rw [List.getD_eq_getElem?_getD] at h
      cases hrx : (g.getD y.toNat [])[x.toNat]? with
      | none =>
        rw [hrx] at h
        cases h
      | some cl =>
        rw [hrx] at h
        simp only [Option.getD_some] at h
        rw [h]
    rw [hx]
    rfl
  · cases h

theorem holdsRun_readRun (w : Word) : ∀ (g : Cells) (d : Direction) (x y : Int),
    holdsRun g d x y w → readRun (collapse g) d x y w.length = some w := by
  induction w with
  | nil =>
    intro g d x y _
    rfl
  | cons c cs ih =>
    intro g d x y hh
    obtain ⟨h1, h2⟩ := hh
    simp only [List.length_cons, readRun]
    rw [charAt_collapse g x y c h1, ih g d _ _ h2]

theorem alphaCells_replicate (w h : Nat) :
    alphaCells (List.replicate h (List.replicate w (none : Option Char))) := by
  intro row hrow cl hcl ch hch
  rw [List.eq_of_mem_replicate hrow] at hcl
  rw [List.eq_of_mem_replicate hcl] at hch
  cases hch

theorem rect_row_len (g : Cells) (w h : Nat) (hr : Rect g w h) :
    ∀ row ∈ g, row.length = w := by
  intro row hrow
  obtain ⟨j, hj, hget⟩ := List.getElem_of_mem hrow
  have hjh := hr.2 j (by rw [← hr.1]; exact hj)
  rw [List.getD_eq_getElem?_getD, List.getElem?_eq_getElem hj, Option.getD_some,
    hget] at hjh
  exact hjh

theorem collapse_alpha (g : Cells) (halpha : alphaCells g) (hsome : noNone g) :
    ∀ row ∈ collapse g, ∀ ch ∈ row, alphaCh ch := by
  intro row hrow ch hch
  simp only [collapse, List.mem_map] at hrow
  obtain ⟨row0, hrow0, rfl⟩ := hrow
  rw [List.mem_map] at hch
  obtain ⟨cl, hcl, rfl⟩ := hch
  have hs := hsome row0 hrow0 cl hcl
  cases cl with
  | none => cases hs
  | some a => exact halpha row0 hrow0 (some a) hcl a rfl

/-- Split a successful `generate` into the underlying placement run. -/
theorem generate_ok (g0 : Grid) (rng : Rng) (rows : List (List Char))
    (h : generate g0 rng = .ok rows) :
    ∃ g2 r2, place_word { g0 with wordlist := (shuffle g0.wordlist rng).1 }
        (shuffle g0.wordlist rng).2 = .ok (g2, r2) ∧ rows = collapse g2.grid := by
  replace h : (match place_word { g0 with wordlist := (shuffle g0.wordlist rng).1 }
      (shuffle g0.wordlist rng).2 with
    | Except.error e => Except.error e
    | Except.ok (g1, _) => Except.ok (collapse g1.grid)) = Except.ok rows := h
  cases hpw : place_word { g0 with wordlist := (shuffle g0.wordlist rng).1 }
      (shuffle g0.wordlist rng).2 with
  | error e =>
    rw [hpw] at h
    cases h
  | ok pr =>
    obtain ⟨g2, r2⟩ := pr
    rw [hpw] at h
    injection h with h'
    exact ⟨g2, r2, rfl, h'.symm⟩

/-! ### Claim theorems -/

/-- C2: whenever the grid contains an occupied cell, neither a successful word
placement (`try_word`) nor the Filler (`fill`) ever changes that cell to a different
letter: a successful placement preserves every occupied cell exactly (the validity
scan admits an occupied cell only when the letters match), and `fill` writes only to
empty cells. -/
theorem C2_no_overwrite (g : Cells) (word : Word) (d : Direction) (x0 y0 : Nat)
    (cells : Cells) (hok : try_word g word d x0 y0 = .ok cells) :
    (∀ p q c, cellI g p q = some c → cellI cells p q = some c) ∧
      (∀ (g2 : Cells) (r : Rng) (p q : Int) (c : Char),
        cellI g2 p q = some c → cellI (fill g2 r).1 p q = some c) := by
  obtain ⟨hscan, hcells⟩ := try_word_ok g word d x0 y0 cells hok
  subst hcells
  exact ⟨writeWord_preserves_occupied word g d x0 y0 hscan,
    fun g2 r p q c hc => fill_occupied g2 r p q c hc⟩

/-- Witness for C2 at a concrete overlap: placing "CA" east from the origin over a
grid whose first cell already holds 'C' succeeds and keeps that 'C'; filling a grid
keeps its occupied 'Q'. -/
theorem C2_no_overwrite_witness :
    cellI [[some 'C', some 'A']] 0 0 = some 'C' ∧
      cellI (fill [[some 'Q', none]] [4]).1 0 0 = some 'Q' := by
  have h := C2_no_overwrite [[some 'C', none]] ['C', 'A'] .East 0 0
    [[some 'C', some 'A']] (by rfl)
  exact ⟨h.1 0 0 'C' (by decide), h.2 [[some 'Q', none]] [4] 0 0 'Q' (by decide)⟩

/-- C4 counterexample: the Dimension Calculator (`Grid::new`), handed an empty word
list, does not return an `EmptyWordListError` (it returns no error value at all):
`.max().unwrap()` panics, modelled as `none`. -/
theorem C4_counterexample : Grid.new [] (some 5) (some 5) = none := rfl

/-- C4 amended: an empty word list is rejected before Grid construction, by
`read_wordlist` in src/main.rs, whose error is surfaced to the caller unchanged;
`Grid::new` itself, handed an empty list, panics (no error value) rather than
returning an `EmptyWordListError`. -/
theorem C4_empty_wordlist (lines : List String) (h : lines = []) :
    read_wordlist_check lines = .error "Empty word list" ∧
      Grid.new [] none none = none := by
  subst h
  exact ⟨rfl, rfl⟩

/-- Witness for C4 at the concrete empty list. -/
theorem C4_empty_wordlist_witness :
    read_wordlist_check [] = .error "Empty word list" ∧
      Grid.new [] none none = none :=
  C4_empty_wordlist [] rfl

/-- C5: for every direction, word length and grid dimensions at least that length
(and below the `usize` bound), the legal starting range on an axis with a negative
step is `[len-1, axis-1]`, on an axis with a non-negative step `[0, axis-len]`, and
both ranges are non-empty. -/
theorem C5_ranges (d : Direction) (len w h : Nat) (h1 : 1 ≤ len) (h2 : len ≤ w)
    (h3 : len ≤ h) (hw : w < USIZE) (hh : h < USIZE) :
    (d.ranges len w h).1 = (if d.next.1 < 0 then (len - 1, w - 1) else (0, w - len)) ∧
      (d.ranges len w h).2 =
        (if d.next.2 < 0 then (len - 1, h - 1) else (0, h - len)) ∧
      (d.ranges len w h).1.1 ≤ (d.ranges len w h).1.2 ∧
      (d.ranges len w h).2.1 ≤ (d.ranges len w h).2.2 := by
  have he := ranges_eq d len w h h1 h2 h3 hw hh
  have hne := ranges_nonempty d len w h h1 h2 h3 hw hh
  refine ⟨?_, ?_, hne.1, hne.2⟩
  · rw [he]
    by_cases hdx : d.next.1 < 0 <;> simp [hdx]
  · rw [he]
    by_cases hdy : d.next.2 < 0 <;> simp [hdy]

/-- Witness for C5: a southwest run of length 2 in a 3 by 4 grid. -/
theorem C5_ranges_witness :
    (Direction.ranges .Southwest 2 3 4).1 =
        (if (Direction.next .Southwest).1 < 0 then (2 - 1, 3 - 1) else (0, 3 - 2)) ∧
      (Direction.ranges .Southwest 2 3 4).2 =
        (if (Direction.next .Southwest).2 < 0 then (2 - 1, 4 - 1) else (0, 4 - 2)) ∧
      (Direction.ranges .Southwest 2 3 4).1.1 ≤ (Direction.ranges .Southwest 2 3 4).1.2 ∧
      (Direction.ranges .Southwest 2 3 4).2.1 ≤ (Direction.ranges .Southwest 2 3 4).2.2 :=
  C5_ranges .Southwest 2 3 4 (by decide) (by decide) (by decide) (by decide) (by decide)

/-- C6 counterexample: with a 2-letter word and a 1 by 1 grid, `Direction::ranges`
performs no explicit check and reports no error; the unsigned subtraction wraps and
the returned range bounds are the out-of-range coordinate `2^64 - 1`, far beyond the
axis size 1. -/
theorem C6_counterexample :
    Direction.ranges .East 2 1 1 = ((0, USIZE - 1), (0, USIZE - 1)) ∧
      1 ≤ USIZE - 1 := by
  constructor
  · rfl
  · decide

/-- C6 amended: the code contains no explicit dimension check and no
`InvalidDimensionError`; when a word is longer than an axis, the `usize` subtraction
in `Direction::ranges` wraps around (release mode; a debug build would panic), and
the resulting range bound is an out-of-range coordinate at least the axis size. Only
the Dimension Calculator's sizing invariant prevents this. -/
theorem C6_no_dimension_check (d : Direction) (len w h : Nat) (hlen : 0 < len)
    (hwlen : w < len) (hlu : len ≤ USIZE) :
    (d.next.1 < 0 → w ≤ (d.ranges len w h).1.1) ∧
      (0 ≤ d.next.1 →
        (d.ranges len w h).1.2 = USIZE - (len - w) ∧ w ≤ (d.ranges len w h).1.2) := by
  have hx1 : wsub len 1 = len - 1 := wsub_eq_sub len 1 hlen (by simp only [USIZE] at *; omega)
  have hx2 : wsub w len = USIZE - (len - w) := by
    simp only [wsub, USIZE] at *
    omega
  cases d <;>
    simp only [Direction.ranges, Direction.next] <;>
    refine ⟨?_, ?_⟩ <;>
    intro hd <;>
    simp_all <;>
    simp only [USIZE] at * <;>
    omega

/-- Witness for C6 at the concrete undersized grid: length 2, axis 1, direction East. -/
theorem C6_no_dimension_check_witness :
    (Direction.ranges .East 2 1 1).1.2 = USIZE - (2 - 1) ∧
      1 ≤ (Direction.ranges .East 2 1 1).1.2 :=
  (C6_no_dimension_check .East 2 1 1 (by decide) (by decide) (by decide)).2
    (by decide)

/-- C7: for each word, the retry budget is the grid's current count of empty cells,
recomputed immediately before that word is processed; if no attempt within that
budget succeeds, `place_word` fails immediately with the placement-exhausted error
carrying the word and that number of attempts, and returns no grid (so nothing is
undone and no partial grid escapes). -/
theorem C7_retry_exhaustion (g : Grid) (rng : Rng) (l : List Word) (word : Word)
    (hsplit : g.wordlist = l ++ [word])
    (hfail : tryAttempts g word (empty_count g.grid) rng = none) :
    place_word g rng = .error { word := word, attempts := empty_count g.grid } ∧
      ∀ (g0 : Grid) (rng0 : Rng) (e : PlacementError),
        place_word { g0 with wordlist := (shuffle g0.wordlist rng0).1 }
            (shuffle g0.wordlist rng0).2 = .error e →
          generate g0 rng0 = .error e := by
  constructor
  · rw [place_word_snoc g rng l word hsplit, hfail]
  · intro g0 rng0 e hpe
    have h : generate g0 rng0
        = match place_word { g0 with wordlist := (shuffle g0.wordlist rng0).1 }
            (shuffle g0.wordlist rng0).2 with
          | Except.error e2 => Except.error e2
          | Except.ok (g1, _) => Except.ok (collapse g1.grid) := rfl
    rw [h, hpe]

/-- Witness for C7: a full 1 by 1 grid gives the next word a budget of zero attempts,
so placement of "A" is reported exhausted after 0 retries. -/
theorem C7_retry_exhaustion_witness :
    place_word { wordlist := [['A']], width := 1, height := 1, grid := [[some 'B']] }
        [] = .error { word := ['A'], attempts := 0 } :=
  (C7_retry_exhaustion
    { wordlist := [['A']], width := 1, height := 1, grid := [[some 'B']] }
    [] [] ['A'] rfl rfl).1

/-- C10: when a single `try_word` attempt succeeds for a word, direction and start
whose run lies inside the grid, then in the returned grid the `length word` cells
along that run hold exactly the word's letters in order, and every cell off the run
is unchanged. -/
theorem C10_frame (g : Cells) (word : Word) (d : Direction) (x0 y0 : Nat)
    (cells : Cells) (hok : try_word g word d x0 y0 = .ok cells)
    (hin : runInBounds g d x0 y0 word.length) :
    holdsRun cells d x0 y0 word ∧
      ∀ p q, ¬ onRun d x0 y0 word.length p q → cellI cells p q = cellI g p q := by
  obtain ⟨hscan, hcells⟩ := try_word_ok g word d x0 y0 cells hok
  subst hcells
  exact ⟨writeWord_holdsRun word g d x0 y0 hscan hin,
    fun p q hpq => writeWord_frame word g d x0 y0 p q hpq⟩

/-- Witness for C10: placing "HI" east from the origin of an empty 1 by 2 grid
writes exactly those two cells (the off-grid point (0, 1) reads the same before and
after). -/
theorem C10_frame_witness :
    holdsRun [[some 'H', some 'I']] .East 0 0 ['H', 'I'] ∧
      cellI [[some 'H', some 'I']] 0 1 = cellI [[none, none]] 0 1 := by
  have h := C10_frame [[none, none]] ['H', 'I'] .East 0 0 [[some 'H', some 'I']]
    (by rfl)
    (by
      intro p q hpq
      simp only [List.length_cons, List.length_nil, onRun, Direction.next] at hpq
      rcases hpq with ⟨rfl, rfl⟩ | ⟨⟨rfl, rfl⟩ | hf⟩
      · exact ⟨by decide, by decide, by decide, by decide⟩
      · exact ⟨by decide, by decide, by decide, by decide⟩
      · cases hf)
  refine ⟨h.1, h.2 0 1 ?_⟩
  simp only [List.length_cons, List.length_nil, onRun, Direction.next]
  decide

/-! ### Concrete generation runs (used by the remaining witnesses) -/

/-- A concrete placement run: the single word "AB" goes east from the origin of an
empty 2 by 2 grid, and the second row is filled with 'C' and 'D'. -/
theorem place_example_ab :
    place_word { wordlist := [['A', 'B']], width := 2, height := 2,
                 grid := [[none, none], [none, none]] } [0, 0, 0, 2, 3]
      = .ok ({ wordlist := [], width := 2, height := 2,
               grid := [[some 'A', some 'B'], [some 'C', some 'D']] }, []) := by
  rw [place_word_snoc _ _ [] ['A', 'B'] rfl]
  show place_word { wordlist := [], width := 2, height := 2,
                    grid := [[some 'A', some 'B'], [none, none]] } [2, 3] = _
  rw [place_word_nil _ _ rfl]
  rfl

/-- The corresponding full generation run, shuffle and unwrap included. -/
theorem generate_example_ab :
    generate { wordlist := [['A', 'B']], width := 2, height := 2,
               grid := [[none, none], [none, none]] } [0, 0, 0, 0, 2, 3]
      = .ok [['A', 'B'], ['C', 'D']] := by
  have h : generate { wordlist := [['A', 'B']], width := 2, height := 2,
                      grid := [[none, none], [none, none]] } [0, 0, 0, 0, 2, 3]
      = match place_word { wordlist := [['A', 'B']], width := 2, height := 2,
                           grid := [[none, none], [none, none]] } [0, 0, 0, 2, 3] with
        | Except.error e => Except.error e
        | Except.ok (g1, _) => Except.ok (collapse g1.grid) := rfl
  rw [h, place_example_ab]
  rfl

/-- A concrete back-to-front run: with words ["A", "B"] kept in that order by the
shuffle, the engine places "B" (the last word) first, at the first drawn cell. -/
theorem place_example_rev :
    place_word { wordlist := [['A'], ['B']], width := 2, height := 1,
                 grid := [[none, none]] } [0, 0, 0, 0, 1, 0]
      = .ok ({ wordlist := [], width := 2, height := 1,
               grid := [[some 'B', some 'A']] }, []) := by
  rw [place_word_snoc _ _ [['A']] ['B'] rfl]
  show place_word { wordlist := [['A']], width := 2, height := 1,
                    grid := [[some 'B', none]] } [0, 1, 0] = _
  rw [place_word_snoc _ _ [] ['A'] rfl]
  show place_word { wordlist := [], width := 2, height := 1,
                    grid := [[some 'B', some 'A']] } [] = _
  rw [place_word_nil _ _ rfl]
  rfl

/-- The same draws fed to the spec-order engine place "A" (the first word) first. -/
theorem place_spec_example_rev :
    place_word_spec { wordlist := [['A'], ['B']], width := 2, height := 1,
                      grid := [[none, none]] } [0, 0, 0, 0, 1, 0]
      = .ok ({ wordlist := [], width := 2, height := 1,
               grid := [[some 'A', some 'B']] }, []) := by
  rw [place_word_spec_cons _ _ ['A'] [['B']] rfl]
  show place_word_spec { wordlist := [['B']], width := 2, height := 1,
                         grid := [[some 'A', none]] } [0, 1, 0] = _
  rw [place_word_spec_cons _ _ ['B'] [] rfl]
  show place_word_spec { wordlist := [], width := 2, height := 1,
                         grid := [[some 'A', some 'B']] } [] = _
  rw [place_word_spec_nil _ _ rfl]
  rfl

/-- C1: for every successfully generated grid and every word in the input word list,
there exists a starting cell and one of the eight directions such that reading
`length word` consecutive cells from that cell along that direction yields exactly
that word. (Words are non-empty per the data model; dimensions fit in `usize`.) -/
theorem C1_full_coverage (wl : List Word) (w0 h0 : Option Nat) (g0 : Grid)
    (rng : Rng) (rows : List (List Char))
    (hnew : Grid.new wl w0 h0 = some g0)
    (hwords : ∀ w ∈ wl, w ≠ [])
    (hw : g0.width < USIZE) (hh : g0.height < USIZE)
    (hgen : generate g0 rng = .ok rows) :
    ∀ w ∈ wl, ∃ (d : Direction) (x y : Int),
      readRun rows d x y w.length = some w := by
  obtain ⟨g2, r2, hpw, hrows⟩ := generate_ok g0 rng rows hgen
  obtain ⟨longest, hm, hwl, hweq, hheq, hgrid⟩ := Grid.new_eq wl w0 h0 g0 hnew
  have hrect : Rect g0.grid g0.width g0.height := by
    rw [hgrid]
    exact rect_replicate g0.width g0.height
  have hdims := Grid.new_dims_ge wl w0 h0 g0 hnew
  have hinv := place_word_ok_invariant ((shuffle g0.wordlist rng).1.length)
    { g0 with wordlist := (shuffle g0.wordlist rng).1 } (shuffle g0.wordlist rng).2
    g2 r2 rfl hpw hrect hw hh
    (by
      intro w hwmem
      have hw0 : w ∈ wl := by
        rw [← hwl]
        exact (shuffle_mem g0.wordlist rng w).mp hwmem
      have hne := hwords w hw0
      have hlen : 1 ≤ w.length := by
        cases w with
        | nil => exact absurd rfl hne
        | cons a as => simp
      exact ⟨hlen, (hdims w hw0).1, (hdims w hw0).2⟩)
  obtain ⟨_, _, _, _, _, hplaced⟩ := hinv
  intro w hwmem
  have hwmem2 : w ∈ (shuffle g0.wordlist rng).1 := by
    rw [shuffle_mem, hwl]
    exact hwmem
  obtain ⟨d, x, y, hholds⟩ := hplaced w hwmem2
  refine ⟨d, x, y, ?_⟩
  rw [hrows]
  exact holdsRun_readRun w g2.grid d x y hholds

/-- Witness for C1 at the concrete run of `generate_example_ab`: the word "AB" is
readable in the finished grid. -/
theorem C1_full_coverage_witness :
    ∃ (d : Direction) (x y : Int),
      readRun [['A', 'B'], ['C', 'D']] d x y (['A', 'B'] : Word).length
        = some ['A', 'B'] :=
  C1_full_coverage [['A', 'B']] (some 2) (some 2)
    { wordlist := [['A', 'B']], width := 2, height := 2,
      grid := [[none, none], [none, none]] }
    [0, 0, 0, 0, 2, 3] [['A', 'B'], ['C', 'D']]
    (by rfl) (by decide) (by decide) (by decide)
    generate_example_ab ['A', 'B'] (by decide)

/-- C3: for a word list on which `Grid::new` succeeds (any non-empty list), the
computed dimensions are `max(longest, override-or-default)` per axis, where the
default size is `ceil(sqrt(2 * avg_len * count)) = ceil(sqrt(2 * total_letters))`
(the `f32` average modelled as exact arithmetic); in particular both dimensions
dominate the length of every word, regardless of override values. -/
theorem C3_dimensions (wl : List Word) (w0 h0 : Option Nat) (g0 : Grid)
    (hnew : Grid.new wl w0 h0 = some g0) :
    ∃ longest, (wl.map List.length).max? = some longest ∧
      g0.width = max longest (w0.getD (ceilSqrt (2 * (wl.map List.length).sum))) ∧
      g0.height = max longest (h0.getD (ceilSqrt (2 * (wl.map List.length).sum))) ∧
      longest ≤ g0.width ∧ longest ≤ g0.height ∧
      ∀ w ∈ wl, w.length ≤ g0.width ∧ w.length ≤ g0.height := by
  obtain ⟨longest, hm, hwl, hweq, hheq, hgrid⟩ := Grid.new_eq wl w0 h0 g0 hnew
  refine ⟨longest, hm, hweq, hheq, ?_, ?_, Grid.new_dims_ge wl w0 h0 g0 hnew⟩
  · rw [hweq]
    exact le_max_left _ _
  · rw [hheq]
    exact le_max_left _ _

/-- Evaluation of `Grid.new` on the spec's example word list (the kernel cannot
reduce `Nat.sqrt`, so this is established by `norm_num`). -/
theorem grid_new_catdog :
    Grid.new [['C', 'A', 'T'], ['D', 'O', 'G']] none none
      = some { wordlist := [['C', 'A', 'T'], ['D', 'O', 'G']], width := 4,
               height := 4, grid := List.replicate 4 (List.replicate 4 none) } := by
  have hs : Nat.sqrt 12 = 3 := by norm_num
  unfold Grid.new
  rw [show (([['C', 'A', 'T'], ['D', 'O', 'G']].map List.length).max?) = some 3
    from rfl]
  norm_num [ceilSqrt, hs]

/-- Witness for C3 at the spec's own example: words "CAT" and "DOG", no overrides,
give default size `ceil(sqrt(12)) = 4` and a 4 by 4 grid. -/
theorem C3_dimensions_witness :
    ∃ longest,
      (([['C', 'A', 'T'], ['D', 'O', 'G']].map List.length).max? = some longest) ∧
      (4 : Nat) = max longest
        ((none : Option Nat).getD
          (ceilSqrt (2 * ([['C', 'A', 'T'], ['D', 'O', 'G']].map List.length).sum))) ∧
      (4 : Nat) = max longest
        ((none : Option Nat).getD
          (ceilSqrt (2 * ([['C', 'A', 'T'], ['D', 'O', 'G']].map List.length).sum))) ∧
      longest ≤ (4 : Nat) ∧ longest ≤ (4 : Nat) ∧
      ∀ w ∈ [['C', 'A', 'T'], ['D', 'O', 'G']], w.length ≤ (4 : Nat) ∧
        w.length ≤ (4 : Nat) :=
  C3_dimensions [['C', 'A', 'T'], ['D', 'O', 'G']] none none
    { wordlist := [['C', 'A', 'T'], ['D', 'O', 'G']], width := 4, height := 4,
      grid := List.replicate 4 (List.replicate 4 none) }
    grid_new_catdog

/-- C8: after a successful generation run over a normalized word list, the returned
grid is a full `height x width` array of letters in `A`-`Z` with no empty cell, and
the Filler is total and leaves no empty cell in any buffer it is given. -/
theorem C8_no_gaps (wl : List Word) (w0 h0 : Option Nat) (g0 : Grid) (rng : Rng)
    (rows : List (List Char))
    (hnew : Grid.new wl w0 h0 = some g0)
    (hwords : ∀ w ∈ wl, w ≠ [])
    (halpha : ∀ w ∈ wl, ∀ c ∈ w, alphaCh c)
    (hw : g0.width < USIZE) (hh : g0.height < USIZE)
    (hgen : generate g0 rng = .ok rows) :
    rows.length = g0.height ∧ (∀ row ∈ rows, row.length = g0.width) ∧
      (∀ row ∈ rows, ∀ ch ∈ row, alphaCh ch) ∧
      ∀ (cellsIn : Cells) (r : Rng), noNone (fill cellsIn r).1 := by
  obtain ⟨g2, r2, hpw, hrows⟩ := generate_ok g0 rng rows hgen
  obtain ⟨longest, hm, hwl, hweq, hheq, hgrid⟩ := Grid.new_eq wl w0 h0 g0 hnew
  have hrect : Rect g0.grid g0.width g0.height := by
    rw [hgrid]
    exact rect_replicate g0.width g0.height
  have hdims := Grid.new_dims_ge wl w0 h0 g0 hnew
  have hmemwl : ∀ w ∈ (shuffle g0.wordlist rng).1, w ∈ wl := by
    intro w hwmem
    rw [← hwl]
    exact (shuffle_mem g0.wordlist rng w).mp hwmem
  have hinv := place_word_ok_invariant ((shuffle g0.wordlist rng).1.length)
    { g0 with wordlist := (shuffle g0.wordlist rng).1 } (shuffle g0.wordlist rng).2
    g2 r2 rfl hpw hrect hw hh
    (by
      intro w hwmem
      have hw0 := hmemwl w hwmem
      have hne := hwords w hw0
      have hlen : 1 ≤ w.length := by
        cases w with
        | nil => exact absurd rfl hne
        | cons a as => simp
      exact ⟨hlen, (hdims w hw0).1, (hdims w hw0).2⟩)
  obtain ⟨_, _, hrect2, hnn, _, _⟩ := hinv
  have halpha2 : alphaCells g2.grid :=
    place_word_ok_alpha ((shuffle g0.wordlist rng).1.length)
      { g0 with wordlist := (shuffle g0.wordlist rng).1 } (shuffle g0.wordlist rng).2
      g2 r2 rfl hpw
      (fun w hwmem => halpha w (hmemwl w hwmem))
      (by
        rw [hgrid]
        exact alphaCells_replicate g0.width g0.height)
  subst hrows
  refine ⟨?_, ?_, collapse_alpha g2.grid halpha2 hnn,
    fun cellsIn r => fill_isSome cellsIn r⟩
  · rw [collapse, List.length_map]
    exact hrect2.1
  · intro row hrow
    simp only [collapse, List.mem_map] at hrow
    obtain ⟨row0, hrow0, rfl⟩ := hrow
    rw [List.length_map]
    exact rect_row_len g2.grid g0.width g0.height hrect2 row0 hrow0

/-- Witness for C8 at the concrete run of `generate_example_ab`: the 2 by 2 result is
full of letters in `A`-`Z`. -/
theorem C8_no_gaps_witness :
    ([['A', 'B'], ['C', 'D']] : List (List Char)).length = 2 ∧
      (∀ row ∈ ([['A', 'B'], ['C', 'D']] : List (List Char)), row.length = 2) ∧
      (∀ row ∈ ([['A', 'B'], ['C', 'D']] : List (List Char)),
        ∀ ch ∈ row, alphaCh ch) ∧
      ∀ (cellsIn : Cells) (r : Rng), noNone (fill cellsIn r).1 :=
  C8_no_gaps [['A', 'B']] (some 2) (some 2)
    { wordlist := [['A', 'B']], width := 2, height := 2,
      grid := [[none, none], [none, none]] }
    [0, 0, 0, 0, 2, 3] [['A', 'B'], ['C', 'D']]
    (by rfl) (by decide) (by decide) (by decide) (by decide)
    generate_example_ab

/-- C9 counterexample: with words ["A", "B"], a 2 by 1 grid, and an oracle whose
shuffle keeps the list order, the source orchestrator produces the grid "BA" (it
placed the LAST shuffled word "B" first, at the first drawn cell), while an engine
fed the words in shuffled order first-word-first (`generate_spec`) produces "AB"
from the same draws: the first shuffled word is not placed first. -/
theorem C9_counterexample :
    generate { wordlist := [['A'], ['B']], width := 2, height := 1,
               grid := [[none, none]] } [0, 0, 0, 0, 0, 0, 1, 0]
        = .ok [['B', 'A']] ∧
      generate_spec { wordlist := [['A'], ['B']], width := 2, height := 1,
                      grid := [[none, none]] } [0, 0, 0, 0, 0, 0, 1, 0]
        = .ok [['A', 'B']] ∧
      ([['B', 'A']] : List (List Char)) ≠ [['A', 'B']] := by
  refine ⟨?_, ?_, by decide⟩
  · have h : generate { wordlist := [['A'], ['B']], width := 2, height := 1,
                        grid := [[none, none]] } [0, 0, 0, 0, 0, 0, 1, 0]
        = match place_word { wordlist := [['A'], ['B']], width := 2, height := 1,
                             grid := [[none, none]] } [0, 0, 0, 0, 1, 0] with
          | Except.error e => Except.error e
          | Except.ok (g1, _) => Except.ok (collapse g1.grid) := rfl
    rw [h, place_example_rev]
    rfl
  · have h : generate_spec { wordlist := [['A'], ['B']], width := 2, height := 1,
                             grid := [[none, none]] } [0, 0, 0, 0, 0, 0, 1, 0]
        = match place_word_spec { wordlist := [['A'], ['B']], width := 2,
                                  height := 1, grid := [[none, none]] }
            [0, 0, 0, 0, 1, 0] with
          | Except.error e => Except.error e
          | Except.ok (g1, _) => Except.ok (collapse g1.grid) := rfl
    rw [h, place_spec_example_rev]
    rfl

/-- C9 amended: the orchestrator shuffles the word list (modelled as an oracle-driven
permutation of the list) and then feeds the words to the placement engine one at a
time in REVERSE shuffled order: `Vec::pop` takes words from the back, so the last
word of the shuffled list is placed first and the first is placed last. Formally, the
source engine coincides with a first-word-first engine run on the reversed list. -/
theorem C9_feed_order (g : Grid) (rng : Rng) :
    place_word g rng
      = place_word_spec { g with wordlist := g.wordlist.reverse } rng :=
  place_word_eq_spec_reverse g.wordlist.length g rng rfl
